import Mathlib

/-!
Verification of the quantum-walk notebook
`community/womanium/assignments/Dendy_Sapto_Adi_hw4.ipynb`.

The notebook builds one step of a discrete-time quantum walk on the path
graph with 16 vertices, using two 4-qubit registers `vertices` and
`adjacent_vertices`.  All amplitudes that occur in this circuit lie in the
ring ℚ[√2], which we realise as the computable ring `Q2` below, so every
state produced by the circuit can be evaluated exactly and compared by
`decide`.
-/

/-- Elements of ℚ[√2], written `re + im·√2`.  Every amplitude appearing in
the notebook's circuit (powers of 1/√2 and rationals) lives here, which
keeps the whole semantics computable and decidable. -/
structure Q2 where
  re : ℚ
  im : ℚ
deriving DecidableEq

namespace Q2

instance : Zero Q2 := ⟨⟨0, 0⟩⟩
instance : One Q2 := ⟨⟨1, 0⟩⟩
instance : Add Q2 := ⟨fun x y => ⟨x.re + y.re, x.im + y.im⟩⟩
instance : Neg Q2 := ⟨fun x => ⟨-x.re, -x.im⟩⟩
instance : Mul Q2 := ⟨fun x y => ⟨x.re * y.re + 2 * x.im * y.im, x.re * y.im + x.im * y.re⟩⟩
instance : NatCast Q2 := ⟨fun n => ⟨n, 0⟩⟩
instance : IntCast Q2 := ⟨fun n => ⟨n, 0⟩⟩

@[simp] theorem zero_re : (0 : Q2).re = 0 := rfl
@[simp] theorem zero_im : (0 : Q2).im = 0 := rfl
@[simp] theorem one_re : (1 : Q2).re = 1 := rfl
@[simp] theorem one_im : (1 : Q2).im = 0 := rfl
@[simp] theorem add_re (x y : Q2) : (x + y).re = x.re + y.re := rfl
@[simp] theorem add_im (x y : Q2) : (x + y).im = x.im + y.im := rfl
@[simp] theorem neg_re (x : Q2) : (-x).re = -x.re := rfl
@[simp] theorem neg_im (x : Q2) : (-x).im = -x.im := rfl
@[simp] theorem mul_re (x y : Q2) : (x * y).re = x.re * y.re + 2 * x.im * y.im := rfl
@[simp] theorem mul_im (x y : Q2) : (x * y).im = x.re * y.im + x.im * y.re := rfl
@[simp] theorem natCast_re (n : ℕ) : (n : Q2).re = n := rfl
@[simp] theorem natCast_im (n : ℕ) : (n : Q2).im = 0 := rfl
@[simp] theorem intCast_re (n : ℤ) : (n : Q2).re = n := rfl
@[simp] theorem intCast_im (n : ℤ) : (n : Q2).im = 0 := rfl

@[ext] theorem ext {x y : Q2} (h1 : x.re = y.re) (h2 : x.im = y.im) : x = y := by
  cases x; cases y; simp_all

instance : CommRing Q2 where
  add_assoc := by intros; ext <;> simp <;> ring
  zero_add := by intros; ext <;> simp
  add_zero := by intros; ext <;> simp
  add_comm := by intros; ext <;> simp <;> ring
  left_distrib := by intros; ext <;> simp <;> ring
  right_distrib := by intros; ext <;> simp <;> ring
  zero_mul := by intros; ext <;> simp
  mul_zero := by intros; ext <;> simp
  mul_assoc := by intros; ext <;> simp <;> ring
  one_mul := by intros; ext <;> simp
  mul_one := by intros; ext <;> simp
  mul_comm := by intros; ext <;> simp <;> ring
  neg_add_cancel := by intros; ext <;> simp
  nsmul := fun n x => ⟨n * x.re, n * x.im⟩
  nsmul_zero := by intros; ext <;> simp
  nsmul_succ := by intros; ext <;> simp <;> ring
  zsmul := fun n x => ⟨n * x.re, n * x.im⟩
  zsmul_zero' := by intros; ext <;> simp
  zsmul_succ' := by intros; ext <;> push_cast <;> simp <;> ring
  zsmul_neg' := by intros; ext <;> push_cast <;> simp <;> ring
  natCast := Nat.cast
  natCast_zero := by ext <;> simp
  natCast_succ := by intro n; ext <;> simp
  intCast := Int.cast
  intCast_ofNat := by intro n; ext <;> simp
  intCast_negSucc := by intro n; ext <;> push_cast <;> simp

/-- Embedding of the rationals into ℚ[√2]. -/
def ofRat (q : ℚ) : Q2 := ⟨q, 0⟩

@[simp] theorem ofRat_re (q : ℚ) : (ofRat q).re = q := rfl
@[simp] theorem ofRat_im (q : ℚ) : (ofRat q).im = 0 := rfl

/-- The amplitude 1/√2 = √2/2, the Hadamard normalisation factor. -/
def invSqrt2 : Q2 := ⟨0, 1/2⟩

@[simp] theorem invSqrt2_re : invSqrt2.re = 0 := rfl
@[simp] theorem invSqrt2_im : invSqrt2.im = 1/2 := rfl

/-- Multiplicative inverse in ℚ[√2] (junk value 0 at 0): the conjugate
divided by the field norm re² − 2·im². -/
def inv (x : Q2) : Q2 :=
  ⟨x.re / (x.re ^ 2 - 2 * x.im ^ 2), -x.im / (x.re ^ 2 - 2 * x.im ^ 2)⟩

/-- Square root on the dyadic probability values {0, 1/2, 1} that occur in
the notebook's probability vectors (junk value 0 elsewhere). -/
def sqrtQ (q : ℚ) : Q2 :=
  if q = 1/2 then invSqrt2 else if q = 1 then 1 else 0

theorem invSqrt2_mul_self : invSqrt2 * invSqrt2 = ofRat (1/2) := by
  ext <;> simp

/-- The modelled square root really is a square root on the three values
the notebook uses. -/
theorem sqrtQ_sq_of_mem (q : ℚ) (h : q = 0 ∨ q = 1/2 ∨ q = 1) :
    sqrtQ q * sqrtQ q = ofRat q := by
  rcases h with h | h | h <;> subst h <;> ext <;> simp [sqrtQ, invSqrt2]

theorem sqrtQ_sq_of_mem_holds : sqrtQ (1/2) * sqrtQ (1/2) = ofRat (1/2) :=
  sqrtQ_sq_of_mem (1/2) (Or.inr (Or.inl rfl))

end Q2

/-!
## Classical layer

`C_iteration` builds, for each vertex `i`, a classical Python list `prob`
of 16 probabilities; `edge_oracle` computes an arithmetic predicate on the
two registers' basis values; `bitwise_swap` swaps the registers qubit by
qubit; `S_operator` composes the oracle with a controlled `bitwise_swap`.
On computational-basis inputs these are classical reversible functions,
embedded here directly.
-/

/-- The probability list built inside `C_iteration`: `prob = [0]*16`, then
`prob[1] = 1.0` for `i = 0`, `prob[14] = 1.0` for `i = 15`, and
`prob[i-1] = prob[i+1] = 0.5` otherwise. -/
def C_prob (i : ℕ) : List ℚ :=
  let base := List.replicate 16 (0 : ℚ)
  if i = 0 then base.set 1 1
  else if i = 15 then base.set 14 1
  else (base.set (i - 1) (1/2)).set (i + 1) (1/2)

/-- The probability list read as a function on neighbor slots. -/
def probFn (i : ℕ) (a : Fin 16) : ℚ := (C_prob i).getD a.val 0

/-- The edge predicate of `edge_oracle` on basis values:
`res |= ((vertices - adjacent_vertices) == 1) | ((vertices - adjacent_vertices) == -1)`,
with the subtraction of the two quantum numerics evaluated exactly over ℤ. -/
def edge_oracle (vertices adjacent_vertices : Fin 16) : Bool :=
  ((vertices.val : ℤ) - adjacent_vertices.val == 1) ||
    ((vertices.val : ℤ) - adjacent_vertices.val == -1)

/-- Write bit `i` of a 4-bit register. -/
def setBit (v : Fin 16) (i : ℕ) (b : Bool) : Fin 16 :=
  ⟨(if b then v.val ||| 2 ^ i else v.val &&& (15 ^^^ 2 ^ i)) % 16, Nat.mod_lt _ (by omega)⟩

/-- One `SWAP(x[i], y[i])`: exchange bit `i` of the two registers. -/
def swapBit (i : ℕ) (x y : Fin 16) : Fin 16 × Fin 16 :=
  (setBit x i (y.val.testBit i), setBit y i (x.val.testBit i))

/-- `bitwise_swap`: `repeat(count=x.len, iteration=lambda i: SWAP(x[i], y[i]))`
on the two 4-qubit registers. -/
def bitwise_swap (x y : Fin 16) : Fin 16 × Fin 16 :=
  (List.range 4).foldl (fun p i => swapBit i p.1 p.2) (x, y)

/-- Swapping every bit of two equal-width registers exchanges their values. -/
theorem bitwise_swap_eq_swap : ∀ x y : Fin 16, bitwise_swap x y = (y, x) := by decide

/-- `S_operator` on basis inputs: compute `res` by `edge_oracle`, then,
controlled on `res == 1`, apply `bitwise_swap` to the registers.  Returns
the two register values and the `res` bit, which the operator never
uncomputes. -/
def S_operator_basis (vertices adjacent_vertices : Fin 16) : Fin 16 × Fin 16 × Bool :=
  let res := edge_oracle vertices adjacent_vertices
  let p := if res then bitwise_swap vertices adjacent_vertices
           else (vertices, adjacent_vertices)
  (p.1, p.2, res)

/-!
## Quantum layer: `zero_diffuzer`

`zero_diffuzer` allocates a fresh auxiliary qubit in |0⟩ and runs
`within_apply(compute=prepare_minus(aux), action=diffuzer_oracle(aux, x))`.
States of the aux ⊗ x system are amplitude functions `Fin 2 × Fin 16 → Q2`.
Gates are embedded as linear maps written pointwise.
-/

/-- State space of the auxiliary qubit joined with a 4-qubit register. -/
abbrev AuxSt := Fin 2 × Fin 16 → Q2

/-- `allocate(1, aux)`: adjoin a fresh auxiliary qubit in state |0⟩ to a
register state. -/
def allocAux (φ : Fin 16 → Q2) : AuxSt := fun p => if p.1 = 0 then φ p.2 else 0

/-- The X gate on the auxiliary qubit. -/
def Xaux (χ : AuxSt) : AuxSt := fun p => if p.1 = 0 then χ (1, p.2) else χ (0, p.2)

/-- The H gate on the auxiliary qubit. -/
def Haux (χ : AuxSt) : AuxSt :=
  fun p => Q2.invSqrt2 * (χ (0, p.2) + (if p.1 = 0 then χ (1, p.2) else -χ (1, p.2)))

/-- `prepare_minus`: X followed by H on the auxiliary qubit. -/
def prepare_minus (χ : AuxSt) : AuxSt := Haux (Xaux χ)

/-- The adjoint of `prepare_minus`, applied by `within_apply` as the
uncompute step: H followed by X. -/
def prepare_minus_adj (χ : AuxSt) : AuxSt := Xaux (Haux χ)

/-- `diffuzer_oracle`: `aux ^= (x != 0)`, i.e. the auxiliary qubit is
flipped exactly on branches with `x ≠ 0`. -/
def diffuzer_oracle (χ : AuxSt) : AuxSt :=
  fun p => if p.2 ≠ 0 then (if p.1 = 0 then χ (1, p.2) else χ (0, p.2)) else χ p

/-- `within_apply(compute, action)`: run `compute`, then `action`, then the
adjoint of `compute` (supplied explicitly as `uncompute`). -/
def within_apply (compute uncompute action : AuxSt → AuxSt) (χ : AuxSt) : AuxSt :=
  uncompute (action (compute χ))

/-- `zero_diffuzer`: allocate the auxiliary qubit and apply the scoped
compute/uncompute pair around the oracle. -/
def zero_diffuzer (φ : Fin 16 → Q2) : AuxSt :=
  within_apply prepare_minus prepare_minus_adj diffuzer_oracle (allocAux φ)

/-- The aux = |0⟩ slice of `zero_diffuzer`: its net effect on the register,
valid because the aux = |1⟩ slice vanishes (`zero_diffuzer_aux_slice`). -/
def zdNet (φ : Fin 16 → Q2) : Fin 16 → Q2 := fun x => zero_diffuzer φ (0, x)

theorem prepare_minus_roundtrip (χ : AuxSt) : prepare_minus_adj (prepare_minus χ) = χ := by
  funext p
  obtain ⟨a, x⟩ := p
  fin_cases a <;>
    · show Xaux (Haux (Haux (Xaux χ))) _ = _
      simp only [Xaux, Haux]
      norm_num
      ext <;> simp <;> ring

theorem zero_diffuzer_zero_slice (φ : Fin 16 → Q2) (x : Fin 16) :
    zero_diffuzer φ (0, x) = if x = 0 then φ x else -φ x := by
  show prepare_minus_adj (diffuzer_oracle (prepare_minus (allocAux φ))) (0, x) = _
  by_cases hx : x = 0 <;>
    · simp only [prepare_minus_adj, prepare_minus, Xaux, Haux, diffuzer_oracle, allocAux, hx]
      ext <;> simp [hx] <;> ring

theorem zero_diffuzer_aux_slice (φ : Fin 16 → Q2) (x : Fin 16) :
    zero_diffuzer φ (1, x) = 0 := by
  show prepare_minus_adj (diffuzer_oracle (prepare_minus (allocAux φ))) (1, x) = _
  by_cases hx : x = 0 <;>
    · simp only [prepare_minus_adj, prepare_minus, Xaux, Haux, diffuzer_oracle, allocAux, hx]
      ext <;> simp [hx]

theorem zdNet_eq (φ : Fin 16 → Q2) (x : Fin 16) :
    zdNet φ x = if x = 0 then φ x else -φ x :=
  zero_diffuzer_zero_slice φ x


/-!
## Claim theorems: classical layer and zero diffuser
-/

/-- C3: for all basis values `a`, `b` in {0,...,15}, the bit computed by
`edge_oracle` is 1 exactly when |a − b| = 1; in particular it is 0 when
a = b and when |a − b| > 1. -/
theorem edge_oracle_iff_abs_diff_one :
    ∀ a b : Fin 16, edge_oracle a b = true ↔ ((a.val : ℤ) - b.val).natAbs = 1 := by
  decide

/-- C9: the edge predicate computed by `edge_oracle` is symmetric in its
two register arguments. -/
theorem edge_oracle_symm : ∀ a b : Fin 16, edge_oracle a b = edge_oracle b a := by
  decide

/-- C5: the 16-entry probability vector built by `C_iteration` has length
16, sums to 1, and is exactly the specified neighbor distribution: a
single entry 1 at index 1 for i = 0, a single entry 1 at index 14 for
i = 15, and two entries 0.5 at i − 1 and i + 1 otherwise. -/
theorem C_prob_neighbor_distribution :
    ∀ i : Fin 16, (C_prob i.val).length = 16 ∧ (C_prob i.val).sum = 1 ∧
      ∀ j : Fin 16, (C_prob i.val).getD j.val 0 =
        if i.val = 0 then (if j.val = 1 then 1 else 0)
        else if i.val = 15 then (if j.val = 14 then 1 else 0)
        else if j.val = i.val - 1 ∨ j.val = i.val + 1 then 1/2 else 0 := by
  with_unfolding_all decide

/-- C4: on every pair of basis values, `S_operator` exchanges the two
registers' bit patterns exactly when the edge predicate holds and leaves
both registers bit-for-bit unchanged otherwise (the third component is the
scoped `res` bit). -/
theorem S_operator_basis_spec :
    ∀ v a : Fin 16, S_operator_basis v a =
      if edge_oracle v a then (a, v, true) else (v, a, false) := by
  decide

/-- C10: `S_operator` never uncomputes its result bit: after the operator,
the `res` component still holds the edge predicate evaluated on the
operator's input register values. -/
theorem S_operator_res_persists :
    ∀ v a : Fin 16, (S_operator_basis v a).2.2 = edge_oracle v a := by
  decide

/-- C6: the net effect of `zero_diffuzer` on the `x` register (the aux=|0⟩
slice of the joint output state) is a relative phase flip on every basis
branch with nonzero index, leaving the zero branch unaffected. -/
theorem zero_diffuzer_phase_flip :
    ∀ (φ : Fin 16 → Q2) (x : Fin 16),
      zero_diffuzer φ (0, x) = if x = 0 then φ x else -φ x := by
  intro φ x
  exact zero_diffuzer_zero_slice φ x

/-- C7: the auxiliary qubit's preparation is exactly inverted by the
uncompute step (`prepare_minus_adj ∘ prepare_minus = id` on every joint
state), and for every input register state the joint output of
`zero_diffuzer` has zero amplitude on every aux=|1⟩ basis state, so the
auxiliary qubit is returned to |0⟩ with no residual correlation to `x`. -/
theorem zero_diffuzer_aux_uncomputed :
    (∀ χ : AuxSt, prepare_minus_adj (prepare_minus χ) = χ) ∧
      ∀ (φ : Fin 16 → Q2) (x : Fin 16), zero_diffuzer φ (1, x) = 0 :=
  ⟨prepare_minus_roundtrip, zero_diffuzer_aux_slice⟩

/-!
## Quantum layer: coin operator, driver, shift

Joint states of vertices ⊗ adjacent_vertices are amplitude functions
`Fin 16 → Fin 16 → Q2`.  The vendor primitive `inplace_prepare_state` is
modelled by its documented contract — a unitary sending |0⟩ to the
amplitude vector √p — realised concretely as the Householder reflection
through (e₀ − √p), which is orthogonal, symmetric and self-inverse, so it
serves as its own adjoint in the `within_apply` uncompute step.
-/

/-- Joint state space of the two 4-qubit registers. -/
abbrev St := Fin 16 → Fin 16 → Q2

/-- Real inner product of two register states. -/
def inner16 (f g : Fin 16 → Q2) : Q2 := ∑ a : Fin 16, f a * g a

/-- Amplitude vector √p of a probability vector p. -/
def targetAmp (p : Fin 16 → ℚ) (a : Fin 16) : Q2 := Q2.sqrtQ (p a)

/-- Householder vector e₀ − √p. -/
def wVec (p : Fin 16 → ℚ) (a : Fin 16) : Q2 := (if a = 0 then 1 else 0) - targetAmp p a

/-- Model of the SDK primitive `inplace_prepare_state(probabilities=p,
target=x)`: the Householder reflection through e₀ − √p, a self-inverse
unitary mapping |0⟩ to the loaded amplitude vector √p. -/
def inplace_prepare_state (p : Fin 16 → ℚ) (φ : Fin 16 → Q2) : Fin 16 → Q2 :=
  fun a =>
    φ a - 2 * inner16 (wVec p) φ * Q2.inv (inner16 (wVec p) (wVec p)) * wVec p a

theorem inner16_sub_smul (w φ : Fin 16 → Q2) (c : Q2) :
    inner16 w (fun b => φ b - c * w b) = inner16 w φ - c * inner16 w w := by
  simp only [inner16, Finset.mul_sum]
  rw [← Finset.sum_sub_distrib]
  refine Finset.sum_congr rfl fun b _ => by ring

/-- The modelled preparation is self-inverse whenever its Householder
vector has invertible norm (true of every probability vector the notebook
passes, checked in `inplace_prepare_state_invol_all`). -/
theorem inplace_prepare_state_involutive (p : Fin 16 → ℚ)
    (h : inner16 (wVec p) (wVec p) * Q2.inv (inner16 (wVec p) (wVec p)) = 1)
    (φ : Fin 16 → Q2) :
    inplace_prepare_state p (inplace_prepare_state p φ) = φ := by
  funext a
  unfold inplace_prepare_state
  rw [inner16_sub_smul (wVec p) φ
    (2 * inner16 (wVec p) φ * Q2.inv (inner16 (wVec p) (wVec p)))]
  generalize hz : inner16 (wVec p) (wVec p) = z at h
  generalize hy : Q2.inv z = y at h
  linear_combination (4 * inner16 (wVec p) φ * y * wVec p a) * h

set_option maxRecDepth 100000 in
/-- The Householder norms are invertible for all 16 probability vectors of
the notebook, so each prepared state really is uncomputed by re-applying
the preparation. -/
theorem inplace_prepare_state_invol_all :
    ∀ i : Fin 16,
      inner16 (wVec (probFn i.val)) (wVec (probFn i.val)) *
        Q2.inv (inner16 (wVec (probFn i.val)) (wVec (probFn i.val))) = 1 := by
  with_unfolding_all decide

set_option maxRecDepth 100000 in
/-- The modelled preparation loads the amplitude vector √p onto |0⟩, for
each of the notebook's 16 probability vectors. -/
theorem inplace_prepare_state_loads :
    ∀ i : Fin 16,
      inplace_prepare_state (probFn i.val) (fun a => if a = 0 then 1 else 0) =
        targetAmp (probFn i.val) := by
  with_unfolding_all decide

/-- One iteration of the coin operator, from `C_iteration`:
`control(ctrl=vertices == i, operand=within_apply(compute=inplace_prepare_state(prob, adjacent_vertices), action=zero_diffuzer(adjacent_vertices)))`.
The control is diagonal in the vertices basis, so it acts branchwise: on
the branch `vertices = i` the adjacent register undergoes prepare, then
the zero diffuser (whose scoped auxiliary qubit factors out by
`zero_diffuzer_aux_slice`, leaving the net action `zdNet`), then the
prepare again as its own adjoint (`inplace_prepare_state_involutive`);
every other branch is untouched. -/
def C_iteration (i : ℕ) (Ψ : St) : St :=
  fun v a =>
    if v.val = i then
      inplace_prepare_state (probFn i)
        (zdNet (inplace_prepare_state (probFn i) (fun b => Ψ v b))) a
    else Ψ v a

/-- `C_operator`: apply `C_iteration(i)` for i = 0, ..., 15 in order. -/
def C_operator (Ψ : St) : St :=
  (List.range 16).foldl (fun s i => C_iteration i s) Ψ

/-- Parity sign ⟨v|H⊗⁴|u⟩ / (1/√2)⁴ = (−1)^popcount(v AND u). -/
def hsign (v u : Fin 16) : Q2 :=
  if ((List.range 4).countP fun k => (v.val &&& u.val).testBit k) % 2 = 0 then 1 else -1

/-- `hadamard_transform` on a 4-qubit register: H on each qubit. -/
def hadamard_transform (φ : Fin 16 → Q2) : Fin 16 → Q2 :=
  fun v => Q2.invSqrt2 ^ 4 * ∑ u : Fin 16, hsign v u * φ u

/-- Basis state |0⟩ of a freshly allocated 4-qubit register. -/
def e0fun : Fin 16 → Q2 := fun a => if a = 0 then 1 else 0

/-- The driver state after `allocate(size, vertices)`,
`hadamard_transform(vertices)`, `allocate(size, adjacent_vertices)`:
the Hadamard transform of |0⟩ on vertices joined with |0⟩ on
adjacent_vertices. -/
def mainInit : St := fun v a => hadamard_transform e0fun v * e0fun a

/-- `S_operator` lifted to joint states: the classical reversible map
`S_operator_basis` transported linearly, with the scoped `res` bit joined
to the output. -/
def S_operator (Ψ : St) (v a : Fin 16) (r : Bool) : Q2 :=
  ∑ v0 : Fin 16, ∑ a0 : Fin 16,
    if S_operator_basis v0 a0 = (v, a, r) then Ψ v0 a0 else 0

/-- The driver `main`: initialize both registers, apply the coin operator,
then the shift operator, once each in that order.  (Named `main_walk` here
because `main` is reserved by Lean.) -/
def main_walk (v a : Fin 16) (r : Bool) : Q2 := S_operator (C_operator mainInit) v a r

/-- Closed form of the coin operator's output on the driver's initial
state: every branch v ≠ 1 keeps adjacent_vertices = |0⟩ with amplitude
−1/4, branch v = 1 holds adjacent_vertices = |2⟩ with amplitude 1/4. -/
def coinResult (v a : Fin 16) : Q2 :=
  if v = 1 then (if a = 2 then Q2.ofRat (1/4) else 0)
  else if a = 0 then Q2.ofRat (-(1/4)) else 0

/-- Intermediate closed forms: after the first `k` coin iterations,
branches below `k` hold their final value and the rest still hold the
initial 1/4 · |0⟩. -/
def afterK (k : ℕ) : St :=
  fun v a => if v.val < k then coinResult v a else Q2.ofRat (1/4) * e0fun a

set_option maxRecDepth 100000 in
theorem mainInit_eq_afterK0 : mainInit = afterK 0 := by
  with_unfolding_all decide

set_option maxRecDepth 100000 in
set_option maxHeartbeats 3000000 in
theorem C_iteration_step :
    ∀ k : Fin 16, C_iteration k.val (afterK k.val) = afterK (k.val + 1) := by
  with_unfolding_all decide

/-- Helper form of the C4 statement, shared by later evaluations. -/
theorem S_operator_basis_eq :
    ∀ v a : Fin 16, S_operator_basis v a =
      if edge_oracle v a then (a, v, true) else (v, a, false) := by
  decide

theorem C_operator_mainInit_eq : C_operator mainInit = afterK 16 := by
  have h0 := mainInit_eq_afterK0
  have s0 : C_iteration 0 (afterK 0) = afterK 1 := C_iteration_step 0
  have s1 : C_iteration 1 (afterK 1) = afterK 2 := C_iteration_step 1
  have s2 : C_iteration 2 (afterK 2) = afterK 3 := C_iteration_step 2
  have s3 : C_iteration 3 (afterK 3) = afterK 4 := C_iteration_step 3
  have s4 : C_iteration 4 (afterK 4) = afterK 5 := C_iteration_step 4
  have s5 : C_iteration 5 (afterK 5) = afterK 6 := C_iteration_step 5
  have s6 : C_iteration 6 (afterK 6) = afterK 7 := C_iteration_step 6
  have s7 : C_iteration 7 (afterK 7) = afterK 8 := C_iteration_step 7
  have s8 : C_iteration 8 (afterK 8) = afterK 9 := C_iteration_step 8
  have s9 : C_iteration 9 (afterK 9) = afterK 10 := C_iteration_step 9
  have s10 : C_iteration 10 (afterK 10) = afterK 11 := C_iteration_step 10
  have s11 : C_iteration 11 (afterK 11) = afterK 12 := C_iteration_step 11
  have s12 : C_iteration 12 (afterK 12) = afterK 13 := C_iteration_step 12
  have s13 : C_iteration 13 (afterK 13) = afterK 14 := C_iteration_step 13
  have s14 : C_iteration 14 (afterK 14) = afterK 15 := C_iteration_step 14
  have s15 : C_iteration 15 (afterK 15) = afterK 16 := C_iteration_step 15
  show (List.range 16).foldl (fun s i => C_iteration i s) mainInit = afterK 16
  rw [show List.range 16 = [0, 1, 2, 3, 4, 5, 6, 7, 8, 9, 10, 11, 12, 13, 14, 15] from rfl]
  simp only [List.foldl_cons, List.foldl_nil]
  rw [h0, s0, s1, s2, s3, s4, s5, s6, s7, s8, s9, s10, s11, s12, s13, s14, s15]

/-- Pointwise closed form of the coin operator's output on the driver's
initial state. -/
theorem afterC_eval : ∀ v a : Fin 16, C_operator mainInit v a = coinResult v a := by
  intro v a
  rw [C_operator_mainInit_eq]
  simp [afterK, v.isLt]

/-- Closed form of the final state of one driver step: amplitude −1/4 on
(v, 0, res=0) for every v ≠ 1, amplitude 1/4 on (2, 1, res=1), zero
elsewhere. -/
def finalAmp (v a : Fin 16) (r : Bool) : Q2 :=
  if r = false ∧ a = 0 ∧ v ≠ 1 then Q2.ofRat (-(1/4))
  else if v = 2 ∧ a = 1 ∧ r = true then Q2.ofRat (1/4) else 0

/-- The lifted shift on `res = 0` outputs: only unswapped, non-adjacent
branches land there. -/
theorem S_operator_false_eval (Ψ : St) (v a : Fin 16) :
    S_operator Ψ v a false = if edge_oracle v a then 0 else Ψ v a := by
  unfold S_operator
  have hsummand : ∀ v0 a0 : Fin 16,
      (if S_operator_basis v0 a0 = (v, a, false) then Ψ v0 a0 else 0) =
        if v0 = v then (if a0 = a then (if edge_oracle v0 a0 then 0 else Ψ v0 a0) else 0)
        else 0 := by
    intro v0 a0
    rw [S_operator_basis_eq]
    by_cases h : edge_oracle v0 a0 = true <;>
      by_cases hv : v0 = v <;> by_cases ha : a0 = a <;>
      simp_all [Prod.ext_iff]
  simp only [hsummand]
  have houter : ∀ v0 : Fin 16,
      (∑ a0 : Fin 16,
        if v0 = v then (if a0 = a then (if edge_oracle v0 a0 then 0 else Ψ v0 a0) else 0)
        else 0) =
      if v0 = v then (if edge_oracle v0 a then 0 else Ψ v0 a) else 0 := by
    intro v0
    by_cases hv : v0 = v
    · simp only [hv, if_true]
      rw [Finset.sum_ite_eq' Finset.univ a fun a0 => if edge_oracle v a0 then 0 else Ψ v a0]
      simp
    · simp [hv]
  simp only [houter]
  rw [Finset.sum_ite_eq' Finset.univ v fun v0 => if edge_oracle v0 a then 0 else Ψ v0 a]
  simp

/-- The lifted shift on `res = 1` outputs: only swapped, adjacent branches
land there. -/
theorem S_operator_true_eval (Ψ : St) (v a : Fin 16) :
    S_operator Ψ v a true = if edge_oracle a v then Ψ a v else 0 := by
  unfold S_operator
  have hsummand : ∀ v0 a0 : Fin 16,
      (if S_operator_basis v0 a0 = (v, a, true) then Ψ v0 a0 else 0) =
        if v0 = a then (if a0 = v then (if edge_oracle v0 a0 then Ψ v0 a0 else 0) else 0)
        else 0 := by
    intro v0 a0
    rw [S_operator_basis_eq]
    by_cases h : edge_oracle v0 a0 = true <;>
      by_cases hv : v0 = a <;> by_cases ha : a0 = v <;>
      simp_all [Prod.ext_iff]
  simp only [hsummand]
  have houter : ∀ v0 : Fin 16,
      (∑ a0 : Fin 16,
        if v0 = a then (if a0 = v then (if edge_oracle v0 a0 then Ψ v0 a0 else 0) else 0)
        else 0) =
      if v0 = a then (if edge_oracle v0 v then Ψ v0 v else 0) else 0 := by
    intro v0
    by_cases hv : v0 = a
    · simp only [hv, if_true]
      rw [Finset.sum_ite_eq' Finset.univ v fun a0 => if edge_oracle a a0 then Ψ a a0 else 0]
      simp
    · simp [hv]
  simp only [houter]
  rw [Finset.sum_ite_eq' Finset.univ a fun v0 => if edge_oracle v0 v then Ψ v0 v else 0]
  simp

set_option maxRecDepth 100000 in
theorem main_walk_eval : ∀ (v a : Fin 16) (r : Bool), main_walk v a r = finalAmp v a r := by
  intro v a r
  show S_operator (C_operator mainInit) v a r = _
  rw [C_operator_mainInit_eq]
  cases r
  case false =>
    rw [S_operator_false_eval]
    revert v a
    with_unfolding_all decide
  case true =>
    rw [S_operator_true_eval]
    revert v a
    with_unfolding_all decide


/-!
## Claim theorems: coin operator and driver
-/

/-- The state the spec's claim asserts for branch i: the neighbor
superposition √(prob i) with the zero diffuser's phase flip applied. -/
def coinTarget (i : ℕ) (a : Fin 16) : Q2 :=
  (if a = 0 then 1 else -1) * Q2.sqrtQ (probFn i a)

/-- C1 (amended): after the full coin operator on the driver's initial
state, each branch of `vertices` carries the result of the reflection
prepare–diffuse–unprepare applied to adjacent_vertices = |0⟩: every branch
v ≠ 1 is left at |0⟩ with amplitude −1/4 and branch v = 1 at |2⟩ with
amplitude 1/4 — not the amplified neighbor superposition, which the scoped
within/apply pair uncomputes. -/
theorem C_operator_reflection_closed_form :
    ∀ v a : Fin 16, C_operator mainInit v a = coinResult v a :=
  afterC_eval

set_option maxRecDepth 100000 in
/-- C1 counterexample: on branch vertices = 5 the claimed state (the
diffused neighbor superposition, supported on indices 4 and 6) does not
match the code's output, which is supported on index 0 only. -/
theorem C_operator_branch5_not_neighbor_state :
    C_operator mainInit 5 4 = 0 ∧ coinTarget 5 4 ≠ 0 ∧
      C_operator mainInit 5 0 ≠ 0 ∧ coinTarget 5 0 = 0 := by
  refine ⟨?_, ?_, ?_, ?_⟩
  · rw [afterC_eval]
    with_unfolding_all decide
  · with_unfolding_all decide
  · rw [afterC_eval]
    with_unfolding_all decide
  · with_unfolding_all decide

/-- C2 (amended): after one full driver step the joint state is exactly
−1/4 on (v, 0, res = 0) for every v ≠ 1 and 1/4 on (2, 1, res = 1); its
support consists of pairs with a' = 0 or |v' − a'| = 1, not only pairs
with |v' − a'| ∈ {0, 1}. -/
theorem main_walk_final_state :
    ∀ (v a : Fin 16) (r : Bool), main_walk v a r = finalAmp v a r :=
  main_walk_eval

set_option maxRecDepth 100000 in
/-- C2 counterexample: the basis pair (v', a') = (5, 0) has nonzero
amplitude at the end of one walk step, but |5 − 0| is neither 0 nor 1. -/
theorem main_walk_support_violation :
    main_walk 5 0 false ≠ 0 ∧
      ¬(((5 : ℤ) - (0 : ℤ)).natAbs = 0 ∨ ((5 : ℤ) - (0 : ℤ)).natAbs = 1) := by
  constructor
  · rw [main_walk_eval]
    with_unfolding_all decide
  · decide

set_option maxRecDepth 100000 in
/-- C8: the driver allocates the two 4-qubit registers, puts `vertices` in
uniform superposition (amplitude 1/4 on every value) while
`adjacent_vertices` stays at its zero-initialized |0⟩, and then applies the
coin operator followed by the shift operator, once each in that order. -/
theorem main_walk_structure :
    (∀ (v a : Fin 16) (r : Bool), main_walk v a r = S_operator (C_operator mainInit) v a r) ∧
      ∀ v a : Fin 16, mainInit v a = Q2.ofRat (1/4) * (if a = 0 then 1 else 0) := by
  constructor
  · intro v a r
    rfl
  · intro v a
    have h := congrFun (congrFun mainInit_eq_afterK0 v) a
    simpa [afterK, e0fun] using h
